import Mathlib

/-!
# Verification of `PGF_invert.py` (davies-py)

Shallow embedding of the single source file `src/PGF_invert.py` and proofs
about it. Python numbers (ints, floats, mpmath `mpf`/`mpc`) are modelled as
exact reals and complexes; a Python function that can raise is modelled with
`Except PyErr`. `raise ValueError` maps to `PyErr.valueError` (the spec's
DomainError) and a division whose divisor is exactly zero maps to
`PyErr.zeroDivisionError`, since both Python scalars and mpmath numbers raise
`ZeroDivisionError` on exact division by zero.
-/

set_option autoImplicit false

open scoped BigOperators

namespace PGFInvert

/-- Python-level exceptions observable from the oracle functions. -/
inductive PyErr where
  | valueError
  | zeroDivisionError
deriving DecidableEq

/-- mpmath's `loggamma`, at the (positive real) arguments the oracle uses:
the logarithm of the Gamma function. -/
noncomputable def loggamma (x : ℝ) : ℝ := Real.log (Real.Gamma x)

/-- The closed-form value computed by `binomial_PMF` (source line 41) once
validation has passed:
`exp(loggamma(n+1) - loggamma(k+1) - loggamma(n-k+1)) * p**k * q**(n-k)`
with `q = 1 - p`. -/
noncomputable def binomial_PMF_val (p : ℝ) (n k : ℤ) : ℝ :=
  Real.exp (loggamma ((n : ℝ) + 1) - loggamma ((k : ℝ) + 1) - loggamma ((n : ℝ) - (k : ℝ) + 1)) *
    p ^ k * (1 - p) ^ (n - k)

/-- `binomial_PMF` (source lines 35-41): raises `ValueError` when
`p < 0 or p > 1 or n < 0 or k < 0 or k > n`, else returns the closed form. -/
noncomputable def binomial_PMF (p : ℝ) (n k : ℤ) : Except PyErr ℝ :=
  if p < 0 ∨ p > 1 ∨ n < 0 ∨ k < 0 ∨ k > n then .error .valueError
  else .ok (binomial_PMF_val p n k)

/-- mpmath's `nsum(f, [0, N])` over the finite integer range `0..N`, for a
term function that can raise: terms are evaluated in order `0, 1, ..., N` and
a raised exception propagates (Python semantics). -/
noncomputable def nsumExc (f : ℤ → Except PyErr ℝ) : ℕ → Except PyErr ℝ
  | 0 => f 0
  | N + 1 =>
    match nsumExc f N with
    | .error e => .error e
    | .ok a =>
      match f ((N : ℤ) + 1) with
      | .error e => .error e
      | .ok v => .ok (a + v)

/-- `binomial_CDF` (source lines 44-48): validates, then
`nsum(lambda j: binomial_PMF(p, n, j), [0, k])`. -/
noncomputable def binomial_CDF (p : ℝ) (n k : ℤ) : Except PyErr ℝ :=
  if p < 0 ∨ p > 1 ∨ n < 0 ∨ k < 0 ∨ k > n then .error .valueError
  else nsumExc (fun j => binomial_PMF p n j) k.toNat

/-- `binomial_PGF` (source lines 51-57): validates, then `(q + p*z)**n` with
`q = 1 - p`. -/
noncomputable def binomial_PGF (p : ℝ) (n : ℤ) (z : ℂ) : Except PyErr ℂ :=
  if p < 0 ∨ p > 1 ∨ n < 0 then .error .valueError
  else .ok ((((1 : ℂ) - (p : ℝ)) + (p : ℝ) * z) ^ n)

/-- The closed-form value computed by `neg_bin_PMF` (source line 66) once
validation passed and `p = m/(r+m)` was formed:
`exp(loggamma(k+r) - loggamma(r) - loggamma(k+1)) * p**k * (1-p)**r`
(the exponent `r` is a real, so `**` is the real power); the local name
`p = m/(r+m)` is substituted where it occurs. -/
noncomputable def neg_bin_PMF_val (r m : ℝ) (k : ℤ) : ℝ :=
  Real.exp (loggamma ((k : ℝ) + r) - loggamma r - loggamma ((k : ℝ) + 1)) *
    (m / (r + m)) ^ k * (1 - m / (r + m)) ^ r

/-- `neg_bin_PMF` (source lines 60-66): raises `ValueError` when
`r < 0 or k < 0 or m < 0`; then computes `p = m / (r + m)` (line 64), which
raises `ZeroDivisionError` when `r + m` is exactly zero; then evaluates
`loggamma(k + r)`, `loggamma(r)`, `loggamma(k + 1.0)` — mpmath's `loggamma`
raises `ValueError` at the poles of the gamma function (the non-positive
integers), and with the guard already passed (`r ≥ 0`, `k ≥ 0`) and the
division successful, the only reachable pole among those three arguments is
`r = 0` (hit in `loggamma(k + r)` when `k = 0`, in `loggamma(r)` otherwise) —
and finally returns the closed form. -/
noncomputable def neg_bin_PMF (r m : ℝ) (k : ℤ) : Except PyErr ℝ :=
  if r < 0 ∨ k < 0 ∨ m < 0 then .error .valueError
  else if r + m = 0 then .error .zeroDivisionError
  else if r = 0 then .error .valueError
  else .ok (neg_bin_PMF_val r m k)

/-- `neg_bin_CDF` (source lines 69-73): validates, then
`nsum(lambda j: neg_bin_PMF(r, m, j), [0, k])`. -/
noncomputable def neg_bin_CDF (r m : ℝ) (k : ℤ) : Except PyErr ℝ :=
  if r < 0 ∨ k < 0 ∨ m < 0 then .error .valueError
  else nsumExc (fun j => neg_bin_PMF r m j) k.toNat

/-- `neg_bin_PGF` (source lines 76-82): validates `r < 0 or m < 0`; computes
`p = m / (r + m)` (raising `ZeroDivisionError` when `r + m = 0`); then returns
`((1 - p) / (1 - p*z)) ** r`, where the inner division raises
`ZeroDivisionError` when `1 - p*z` is exactly zero and `**` is the principal
complex power; the local name `p = m/(r+m)` is substituted where it occurs. -/
noncomputable def neg_bin_PGF (r m : ℝ) (z : ℂ) : Except PyErr ℂ :=
  if r < 0 ∨ m < 0 then .error .valueError
  else if r + m = 0 then .error .zeroDivisionError
  else if (1 : ℂ) - ((m / (r + m) : ℝ) : ℂ) * z = 0 then .error .zeroDivisionError
  else .ok ((((1 : ℂ) - ((m / (r + m) : ℝ) : ℂ)) /
    ((1 : ℂ) - ((m / (r + m) : ℝ) : ℂ) * z)) ^ ((r : ℝ) : ℂ))

/-- The outcome of one run of an adaptive quadrature: the integral estimate it
settled on and the error bound it achieved. mpmath's `quad` computes both (the
pair is what `quad(..., error=True)` would expose); by default it returns only
the estimate — on failure to converge it emits a warning and still returns the
estimate, it does not raise. -/
structure QuadOutcome where
  estimate : ℝ
  errEst : ℝ

/-- A quadrature backend: ambient working precision (`mp.dps`), integrand,
interval endpoints ↦ outcome of the adaptive integration. This stands for
mpmath's `quad`, whose internal numerics belong to the library; what matters
for the source file is that `quad` consults the *ambient* precision context
and yields an estimate together with an achieved error bound. -/
def QuadBackend := ℕ → (ℝ → ℝ) → ℝ → ℝ → QuadOutcome

/-- Source line 18: `mp.dps = 15` — the module sets the ambient mpmath
working precision to 15 significant digits at import time. -/
def mp_dps_init : ℕ := 15

/-- The integrand built by `invert_pgf` (source line 30), with `x = k + 1`
already substituted; written with Python's grouping:
`re(G(exp(1j*t)) * exp(-1j*t*x) / (2.0 * pi * (1.0 - exp(-1j*t))))`
where `-1j*t*x` associates as `((-1j)*t)*x` and the denominator as
`(2.0*pi) * (1.0 - exp(-1j*t))`. -/
noncomputable def my_integrand (G : ℂ → ℂ) (x : ℤ) : ℝ → ℝ := fun t =>
  (G (Complex.exp (Complex.I * (t : ℝ))) *
      Complex.exp (-Complex.I * (t : ℝ) * (x : ℤ)) /
      ((2 : ℂ) * (Real.pi : ℝ) * (1 - Complex.exp (-Complex.I * (t : ℝ))))).re

/-- `invert_pgf` (source lines 21-32): `x = k + 1`; form `my_integrand`;
`my_integral = quad(my_integrand, [-pi, pi])` (a single interval, not split at
the singular point `t = 0`), the quadrature running at the ambient precision
`s`; return `0.5 - my_integral`. -/
noncomputable def invert_pgf (q : QuadBackend) (s : ℕ) (G : ℂ → ℂ) (k : ℤ) : ℝ :=
  0.5 - (q s (my_integrand G (k + 1)) (-Real.pi) Real.pi).estimate

/-- The error type the spec postulates for a failed quadrature, carrying the
achieved error estimate and the subdivision depth. No such error exists
anywhere in the program: it appears here only so that the spec's claimed error
channel can be stated. -/
structure NumericalError where
  errEst : ℝ
  depth : ℕ

/-- `invert_pgf` viewed through Python's exception channel for numerical
convergence failures: the source has no `try`/`except` and no error type, and
mpmath's `quad` reports non-convergence by warning and returning its estimate
rather than by raising, so every call returns `ok` of the numeric value. -/
noncomputable def invert_pgf_exc (q : QuadBackend) (s : ℕ) (G : ℂ → ℂ) (k : ℤ) :
    Except NumericalError ℝ :=
  .ok (invert_pgf q s G k)

/-- The inversion integrand exactly as the spec writes it:
`f(t) = Re[ G(e^{it}) * e^{-itx} / (2*pi*(1 - e^{-it})) ]`. -/
noncomputable def davies_integrand (G : ℂ → ℂ) (x : ℤ) : ℝ → ℝ := fun t =>
  (G (Complex.exp (Complex.I * (t : ℝ))) *
      Complex.exp (-(Complex.I * (t : ℝ) * (x : ℤ))) /
      (((2 * Real.pi : ℝ) : ℂ) * (1 - Complex.exp (-(Complex.I * (t : ℝ)))))).re

/-! ## Helper lemmas -/

theorem binomial_PMF_ok (p : ℝ) (n k : ℤ) (hp0 : 0 ≤ p) (hp1 : p ≤ 1)
    (hn : 0 ≤ n) (hk0 : 0 ≤ k) (hkn : k ≤ n) :
    binomial_PMF p n k = .ok (binomial_PMF_val p n k) := by
  unfold binomial_PMF
  rw [if_neg]
  push_neg
  exact ⟨hp0, hp1, hn, hk0, hkn⟩

theorem neg_bin_PMF_ok (r m : ℝ) (k : ℤ) (hr : 0 < r) (hm : 0 < m)
    (hk : 0 ≤ k) :
    neg_bin_PMF r m k = .ok (neg_bin_PMF_val r m k) := by
  unfold neg_bin_PMF
  rw [if_neg (by push_neg; exact ⟨le_of_lt hr, hk, le_of_lt hm⟩),
    if_neg (by positivity), if_neg (ne_of_gt hr)]

theorem nsumExc_ok (f : ℤ → Except PyErr ℝ) (g : ℤ → ℝ) (N : ℕ)
    (h : ∀ j : ℕ, j ≤ N → f (j : ℤ) = .ok (g (j : ℤ))) :
    nsumExc f N = .ok (∑ j ∈ Finset.range (N + 1), g (j : ℤ)) := by
  induction N with
  | zero => simpa using h 0 le_rfl
  | succ N ih =>
      have hN := ih (fun j hj => h j (Nat.le_succ_of_le hj))
      have h1 : f ((N : ℤ) + 1) = .ok (g ((N : ℤ) + 1)) := by
        have h2 := h (N + 1) le_rfl
        push_cast at h2
        exact h2
      unfold nsumExc
      rw [hN, h1]
      conv_rhs => rw [Finset.sum_range_succ]
      push_cast
      ring_nf

theorem my_integrand_eq_davies (G : ℂ → ℂ) (x : ℤ) :
    my_integrand G x = davies_integrand G x := by
  funext t
  unfold my_integrand davies_integrand
  push_cast
  ring_nf

/-- A trivial quadrature backend, used only to instantiate theorems with
hypotheses at a concrete input. -/
def qZero : QuadBackend := fun _ _ _ _ => ⟨0, 0⟩

/-- A quadrature run that failed to converge: its achieved error estimate is
1, far above the 15-digit target tolerance. -/
def qNoConv : QuadBackend := fun _ _ _ _ => ⟨0, 1⟩

/-- A quadrature backend whose estimate depends on the ambient working
precision it is handed — as mpmath's adaptive `quad` does, its target
tolerance and refinement depth being derived from the ambient context. -/
def qDps : QuadBackend := fun d _ _ _ => ⟨(d : ℝ), 0⟩

/-! ## Claims -/

/-- C1: for every PGF `G` and integer `k ≥ -1`, `invert_pgf G k` computes
exactly the specified algorithm: with `x = k + 1` it integrates
`f(t) = Re[G(e^{it}) e^{-itx} / (2π(1 - e^{-it}))]` over `[-π, π]` (with
whatever quadrature backend, at whatever ambient precision) and returns
`0.5` minus the computed integral. -/
theorem C1_invert_pgf_algorithm (q : QuadBackend) (s : ℕ) (G : ℂ → ℂ) (k : ℤ)
    (_hk : -1 ≤ k) :
    invert_pgf q s G k =
      0.5 - (q s (davies_integrand G (k + 1)) (-Real.pi) Real.pi).estimate := by
  unfold invert_pgf
  rw [my_integrand_eq_davies]

theorem C1_invert_pgf_algorithm_witness :
    (-1 : ℤ) ≤ 0 ∧
      invert_pgf qZero 15 (fun z => z) 0 =
        0.5 - (qZero 15 (davies_integrand (fun z => z) (0 + 1)) (-Real.pi)
          Real.pi).estimate :=
  ⟨by norm_num, C1_invert_pgf_algorithm qZero 15 (fun z => z) 0 (by norm_num)⟩

/-- C2 counterexample: a quadrature run whose achieved error estimate (1)
exceeds the 15-digit tolerance `10⁻¹⁵`, yet `invert_pgf` returns the plain
numeric value `ok (1/2)` — no `NumericalError` is raised: the program has no
such error channel at all. -/
theorem C2_counterexample :
    (qNoConv 15 (my_integrand (fun _ => 1) 1) (-Real.pi) Real.pi).errEst >
        (10 : ℝ) ^ (-15 : ℤ) ∧
      invert_pgf_exc qNoConv 15 (fun _ => 1) 0 = Except.ok (1 / 2 : ℝ) := by
  constructor
  · show (1 : ℝ) > (10 : ℝ) ^ (-15 : ℤ)
    rw [zpow_neg, gt_iff_lt, inv_lt_one_iff₀]
    right
    norm_num
  · show Except.ok ((0.5 : ℝ) - 0) = Except.ok (1 / 2 : ℝ)
    norm_num

/-- C2 (amended): the quadrature reports no convergence failure through an
exception: whatever outcome the engine reaches — converged or not —
`invert_pgf` returns `ok` of `0.5` minus the estimate of that outcome. The
`NumericalError` of the spec exists nowhere in the program. -/
theorem C2_no_error_channel (q : QuadBackend) (s : ℕ) (G : ℂ → ℂ) (k : ℤ) :
    invert_pgf_exc q s G k =
      Except.ok (0.5 - (q s (my_integrand G (k + 1)) (-Real.pi) Real.pi).estimate) :=
  rfl

/-- C3 counterexample: `invert_pgf` takes only `G` and `k`; its result flows
through the ambient precision state, so the same call under two different
ambient `mp.dps` settings can differ — the calls interfere through global
state, refuting the claimed explicit third parameter. -/
theorem C3_counterexample :
    invert_pgf qDps 15 (fun z => z) 0 ≠ invert_pgf qDps 16 (fun z => z) 0 := by
  unfold invert_pgf qDps
  norm_num

/-- C3 (amended): the working precision is not a parameter of `invert_pgf`:
it is the ambient module-level mpmath state `mp.dps`, set to 15 once at import
(line 18), and the quadrature inside `invert_pgf` consults exactly that
ambient value. -/
theorem C3_ambient_precision (q : QuadBackend) (G : ℂ → ℂ) (k : ℤ) :
    mp_dps_init = 15 ∧
      invert_pgf q mp_dps_init G k =
        0.5 - (q 15 (my_integrand G (k + 1)) (-Real.pi) Real.pi).estimate :=
  ⟨rfl, rfl⟩

/-- Helper: for `r = m = 0` the negative-binomial validation passes (it tests
only `r < 0 or k < 0 or m < 0`) and `p = m/(r+m)` is an exact division by
zero. -/
theorem neg_bin_PMF_zero_zero (k : ℤ) (hk : 0 ≤ k) :
    neg_bin_PMF 0 0 k = .error .zeroDivisionError := by
  unfold neg_bin_PMF
  rw [if_neg (by push_neg; exact ⟨le_refl 0, hk, le_refl 0⟩), if_pos (by norm_num)]

/-- C5: the oracle PGFs are normalized at `z = 1`: `binomial_PGF p n 1 = 1`
for every `p ∈ [0,1]` and integer `n ≥ 0`, and `neg_bin_PGF r m 1 = 1` for
every `r > 0`, `m > 0` (exactly, in the real/complex semantics). -/
theorem C5_pgf_normalization :
    (∀ (p : ℝ) (n : ℤ), 0 ≤ p → p ≤ 1 → 0 ≤ n → binomial_PGF p n 1 = .ok 1) ∧
      ∀ (r m : ℝ), 0 < r → 0 < m → neg_bin_PGF r m 1 = .ok 1 := by
  constructor
  · intro p n hp0 hp1 hn
    unfold binomial_PGF
    rw [if_neg (by push_neg; exact ⟨hp0, hp1, hn⟩)]
    have h1 : ((1 : ℂ) - (p : ℝ)) + (p : ℝ) * 1 = 1 := by ring
    rw [h1, one_zpow]
  · intro r m hr hm
    unfold neg_bin_PGF
    have hplt : m / (r + m) < 1 := (div_lt_one (by linarith)).mpr (by linarith)
    have hq : (1 : ℂ) - ((m / (r + m) : ℝ) : ℂ) ≠ 0 := by
      rw [sub_ne_zero]
      exact fun h => (ne_of_lt hplt) (Complex.ofReal_eq_one.mp h.symm)
    rw [if_neg (by push_neg; exact ⟨le_of_lt hr, le_of_lt hm⟩),
      if_neg (by positivity), if_neg (by rw [mul_one]; exact hq)]
    have h2 : (((1 : ℂ) - ((m / (r + m) : ℝ) : ℂ)) /
        ((1 : ℂ) - ((m / (r + m) : ℝ) : ℂ) * 1)) ^ ((r : ℝ) : ℂ) = 1 := by
      rw [mul_one, div_self hq, Complex.one_cpow]
    rw [h2]

theorem C5_pgf_normalization_witness :
    binomial_PGF (1/2) 3 1 = .ok 1 ∧ neg_bin_PGF 1 1 1 = .ok 1 :=
  ⟨C5_pgf_normalization.1 (1/2) 3 (by norm_num) (by norm_num) (by norm_num),
    C5_pgf_normalization.2 1 1 (by norm_num) (by norm_num)⟩

/-- C6: for valid parameters the oracle CDFs equal the exact sum of the
oracle PMFs over `0..k` inclusive, term by term. -/
theorem C6_cdf_is_pmf_sum :
    (∀ (p : ℝ) (n k : ℤ), 0 ≤ p → p ≤ 1 → 0 ≤ n → 0 ≤ k → k ≤ n →
        binomial_CDF p n k =
            .ok (∑ j ∈ Finset.range (k.toNat + 1), binomial_PMF_val p n (j : ℤ)) ∧
          ∀ j : ℤ, 0 ≤ j → j ≤ k →
            binomial_PMF p n j = .ok (binomial_PMF_val p n j)) ∧
      ∀ (r m : ℝ) (k : ℤ), 0 < r → 0 < m → 0 ≤ k →
        neg_bin_CDF r m k =
            .ok (∑ j ∈ Finset.range (k.toNat + 1), neg_bin_PMF_val r m (j : ℤ)) ∧
          ∀ j : ℤ, 0 ≤ j → j ≤ k →
            neg_bin_PMF r m j = .ok (neg_bin_PMF_val r m j) := by
  constructor
  · intro p n k hp0 hp1 hn hk0 hkn
    refine ⟨?_, fun j hj0 hjk =>
      binomial_PMF_ok p n j hp0 hp1 hn hj0 (le_trans hjk hkn)⟩
    unfold binomial_CDF
    rw [if_neg (by push_neg; exact ⟨hp0, hp1, hn, hk0, hkn⟩)]
    refine nsumExc_ok _ _ _ (fun j hj => ?_)
    have hj1 : (j : ℤ) ≤ k := by omega
    exact binomial_PMF_ok p n j hp0 hp1 hn (Int.natCast_nonneg j)
      (le_trans hj1 hkn)
  · intro r m k hr hm hk0
    refine ⟨?_, fun j hj0 _ => neg_bin_PMF_ok r m j hr hm hj0⟩
    unfold neg_bin_CDF
    rw [if_neg (by push_neg; exact ⟨le_of_lt hr, hk0, le_of_lt hm⟩)]
    exact nsumExc_ok _ _ _ (fun j _ =>
      neg_bin_PMF_ok r m j hr hm (Int.natCast_nonneg j))

theorem C6_cdf_is_pmf_sum_witness :
    binomial_CDF (1/2) 3 2 =
        .ok (∑ j ∈ Finset.range ((2 : ℤ).toNat + 1),
          binomial_PMF_val (1/2) 3 (j : ℤ)) ∧
      neg_bin_CDF 1 1 1 =
        .ok (∑ j ∈ Finset.range ((1 : ℤ).toNat + 1),
          neg_bin_PMF_val 1 1 (j : ℤ)) :=
  ⟨(C6_cdf_is_pmf_sum.1 (1/2) 3 2 (by norm_num) (by norm_num) (by norm_num)
      (by norm_num) (by norm_num)).1,
    (C6_cdf_is_pmf_sum.2 1 1 1 (by norm_num) (by norm_num) (by norm_num)).1⟩

/-- C7 counterexample: `r = 0, m = 0, k = 0` lies outside the negative
binomial's mathematically valid range (`0 < r` fails), yet the oracle does
not raise its DomainError (`ValueError`) there: validation admits the point,
and the call fails with `ZeroDivisionError` instead — so DomainError is not
raised "exactly when a parameter is outside its mathematically valid
range". -/
theorem C7_counterexample :
    ¬ (0 : ℝ) < 0 ∧ neg_bin_PMF 0 0 0 ≠ Except.error PyErr.valueError := by
  refine ⟨lt_irrefl 0, ?_⟩
  rw [neg_bin_PMF_zero_zero 0 le_rfl]
  simp

/-- C7 (amended): the oracle raises DomainError (`ValueError`) exactly when:
for the binomial, a parameter is outside its mathematically valid range
(`p ∉ [0,1]`, `n < 0`, or `k ∉ [0,n]`); for the negative binomial, when
`r < 0`, `m < 0` or `k < 0` (its guard) or when `r = 0` with `m > 0`
(mpmath's `loggamma` pole at the gamma-function singularity). The three
listed calls all raise DomainError, and parameters inside the valid ranges
never raise — the sole departure from "exactly when outside the
mathematically valid range" is the point `r = m = 0`, which fails with
`ZeroDivisionError` instead (see the counterexample). -/
theorem C7_domain_error_cases :
    binomial_PMF (-(1/10)) 5 2 = .error .valueError ∧
      binomial_PMF (1/2) 5 6 = .error .valueError ∧
        neg_bin_PMF (-1) 5 0 = .error .valueError ∧
          (∀ (p : ℝ) (n k : ℤ),
              binomial_PMF p n k = .error .valueError ↔
                (p < 0 ∨ p > 1 ∨ n < 0 ∨ k < 0 ∨ k > n)) ∧
            (∀ (r m : ℝ) (k : ℤ),
                neg_bin_PMF r m k = .error .valueError ↔
                  (r < 0 ∨ k < 0 ∨ m < 0 ∨ (r = 0 ∧ 0 < m))) ∧
              ∀ (r m : ℝ) (k : ℤ), 0 < r → 0 < m → 0 ≤ k →
                neg_bin_PMF r m k = .ok (neg_bin_PMF_val r m k) := by
  refine ⟨?_, ?_, ?_, ?_, ?_, fun r m k hr hm hk => neg_bin_PMF_ok r m k hr hm hk⟩
  · unfold binomial_PMF
    rw [if_pos (by norm_num)]
  · unfold binomial_PMF
    rw [if_pos (by norm_num)]
  · unfold neg_bin_PMF
    rw [if_pos (by norm_num)]
  · intro p n k
    unfold binomial_PMF
    constructor
    · intro h
      by_contra hcond
      rw [if_neg hcond] at h
      exact Except.noConfusion h
    · intro hcond
      rw [if_pos hcond]
  · intro r m k
    unfold neg_bin_PMF
    constructor
    · intro h
      by_cases h1 : r < 0 ∨ k < 0 ∨ m < 0
      · tauto
      · rw [if_neg h1] at h
        push_neg at h1
        obtain ⟨hr0, hk0, hm0⟩ := h1
        by_cases h2 : r + m = 0
        · rw [if_pos h2] at h
          exact absurd h (by simp)
        · rw [if_neg h2] at h
          by_cases h3 : r = 0
          · refine Or.inr (Or.inr (Or.inr ⟨h3, ?_⟩))
            rcases lt_or_eq_of_le hm0 with hm1 | hm1
            · exact hm1
            · exact absurd (by rw [h3, ← hm1, add_zero]) h2
          · rw [if_neg h3] at h
            exact absurd h (by simp)
    · intro hcond
      rcases hcond with h | h | h | ⟨h3, hm⟩
      · rw [if_pos (Or.inl h)]
      · rw [if_pos (Or.inr (Or.inl h))]
      · rw [if_pos (Or.inr (Or.inr h))]
      · by_cases hk : k < 0
        · rw [if_pos (Or.inr (Or.inl hk))]
        · rw [if_neg (by push_neg; exact ⟨le_of_eq h3.symm, by omega, le_of_lt hm⟩),
            if_neg (by rw [h3, zero_add]; exact ne_of_gt hm), if_pos h3]

theorem C7_domain_error_cases_witness :
    neg_bin_PMF 2 3 1 = .ok (neg_bin_PMF_val 2 3 1) :=
  C7_domain_error_cases.2.2.2.2.2 2 3 1 (by norm_num) (by norm_num) (by norm_num)

/-- C9: the negative-binomial validation admits `r = 0, m = 0` (it rejects
only `r < 0`, `m < 0`, `k < 0`), after which `p = m/(r+m)` is an unguarded
division by zero: `neg_bin_PMF(0,0,k)`, `neg_bin_PGF(0,0,z)` — and hence also
`neg_bin_CDF(0,0,0)`, through its PMF terms — fail with `ZeroDivisionError`
instead of the domain error. -/
theorem C9_unguarded_zero_division :
    (∀ k : ℤ, 0 ≤ k → neg_bin_PMF 0 0 k = .error .zeroDivisionError) ∧
      (∀ z : ℂ, neg_bin_PGF 0 0 z = .error .zeroDivisionError) ∧
        neg_bin_CDF 0 0 0 = .error .zeroDivisionError := by
  refine ⟨neg_bin_PMF_zero_zero, fun z => ?_, ?_⟩
  · unfold neg_bin_PGF
    rw [if_neg (by norm_num), if_pos (by norm_num)]
  · unfold neg_bin_CDF
    rw [if_neg (by norm_num)]
    show nsumExc (fun j => neg_bin_PMF 0 0 j) 0 = _
    show neg_bin_PMF 0 0 0 = _
    exact neg_bin_PMF_zero_zero 0 le_rfl

theorem C9_unguarded_zero_division_witness :
    neg_bin_PMF 0 0 3 = .error .zeroDivisionError ∧
      neg_bin_PGF 0 0 Complex.I = .error .zeroDivisionError :=
  ⟨C9_unguarded_zero_division.1 3 (by norm_num),
    C9_unguarded_zero_division.2.1 Complex.I⟩

/-- C10: the binomial PMF satisfies the symmetry
`binomial_PMF p n k = binomial_PMF (1-p) n (n-k)` for `p ∈ [0,1]` and
`0 ≤ k ≤ n`, as exact real arithmetic over the gamma-function formula. -/
theorem C10_binomial_pmf_symmetry (p : ℝ) (n k : ℤ) (hp0 : 0 ≤ p)
    (hp1 : p ≤ 1) (hk0 : 0 ≤ k) (hkn : k ≤ n) :
    binomial_PMF p n k = binomial_PMF (1 - p) n (n - k) := by
  rw [binomial_PMF_ok p n k hp0 hp1 (le_trans hk0 hkn) hk0 hkn,
    binomial_PMF_ok (1 - p) n (n - k) (by linarith) (by linarith)
      (le_trans hk0 hkn) (by omega) (by omega)]
  unfold binomial_PMF_val
  have h1 : n - (n - k) = k := by omega
  rw [h1]
  have h2 : (1 : ℝ) - (1 - p) = p := by ring
  rw [h2]
  push_cast
  have h3 : (n : ℝ) - ((n : ℝ) - (k : ℝ)) + 1 = (k : ℝ) + 1 := by ring
  rw [h3, sub_right_comm (loggamma ((n : ℝ) + 1)) (loggamma ((k : ℝ) + 1))
    (loggamma ((n : ℝ) - (k : ℝ) + 1)), mul_right_comm]

theorem C10_binomial_pmf_symmetry_witness :
    (0 : ℝ) ≤ 1/4 ∧ (1/4 : ℝ) ≤ 1 ∧ (0 : ℤ) ≤ 1 ∧ (1 : ℤ) ≤ 3 ∧
      binomial_PMF (1/4) 3 1 = binomial_PMF (1 - 1/4) 3 (3 - 1) :=
  ⟨by norm_num, by norm_num, by norm_num, by norm_num,
    C10_binomial_pmf_symmetry (1/4) 3 1 (by norm_num) (by norm_num)
      (by norm_num) (by norm_num)⟩

end PGFInvert
